import Mathlib

/-!
Verification of the commit-graph construction and interactive prompting core
of the `git-scripts` repository (files `gitutils.py` and `git_prev_next.py`).

Python strings are modelled as Lean `String`s (lists of code points);
Python `str.casefold` is modelled as per-character `Char.toLower` (the inputs
involved are ASCII).  Python lists of objects with identity are modelled as a
heap (`List GraphNode` indexed by `Nat` references) together with an
insertion-ordered association list for the `dict`.  Interactive standard
input is modelled as a list of lines; standard output and standard error are
modelled as accumulated strings.
-/

namespace GitScripts

/-! ### String helpers (models of `str.split`, `str.splitlines`, `str.strip`) -/

/-- Model of Python `str.split()` (no separator): splits on runs of
whitespace, dropping empty tokens.  `tok` holds the current token reversed. -/
def splitWsGo (tok : List Char) : List Char → List (List Char)
  | [] => if tok.isEmpty then [] else [tok.reverse]
  | c :: cs =>
    if c.isWhitespace then
      if tok.isEmpty then splitWsGo [] cs
      else tok.reverse :: splitWsGo [] cs
    else splitWsGo (c :: tok) cs

/-- `line.split()` from `git_commit_graph` (gitutils.py line 593). -/
def pySplit (s : String) : List String :=
  (splitWsGo [] s.data).map (fun t => String.mk t)

/-- Model of Python `str.splitlines()` restricted to `"\n"` separators (the
only line separator occurring in `git rev-list` output): a trailing newline
does not produce a final empty line. -/
def splitLinesGo (cur : List Char) : List Char → List String
  | [] => if cur.isEmpty then [] else [String.mk cur.reverse]
  | c :: cs =>
    if c = '\n' then String.mk cur.reverse :: splitLinesGo [] cs
    else splitLinesGo (c :: cur) cs

/-- `result.stdout.splitlines()` (gitutils.py line 592). -/
def splitlines (s : String) : List String :=
  splitLinesGo [] s.data

/-- `normalize_choice_str` from `prompt_with_choices` (gitutils.py lines
289-295): `s.strip().casefold()`, with `casefold` modelled as `toLower`. -/
def normalize_choice_str (s : String) : String :=
  String.mk
    (((s.data.dropWhile Char.isWhitespace).reverse.dropWhile
        Char.isWhitespace).reverse.map Char.toLower)

/-! ### `ellipsize` (gitutils.py lines 207-227) -/

/-- The ellipsis marker `"..."` used by `ellipsize`. -/
def ellipsisChars : List Char := ['.', '.', '.']

/-- `ellipsize(s, width)` (gitutils.py lines 207-227), on code-point lists.
The source asserts `width > 0`. -/
def ellipsize (s : List Char) (width : Nat) : List Char :=
  if s.length ≤ width then s
  else if width < ellipsisChars.length then s.take width
  else s.take (width - ellipsisChars.length) ++ ellipsisChars

/-- `ellipsize` lifted to `String`, with `none` width modelling the
`math.inf` width used when stdout is not a terminal (no truncation). -/
def ellipsizeStr (s : String) (width : Option Nat) : String :=
  match width with
  | none => s
  | some w => String.mk (ellipsize s.data w)

/-! ### The commit graph (gitutils.py lines 62-76 and 578-599)

Python objects have identity; a `GraphNode` is therefore stored in a heap
(`List GraphNode`) and referred to by its index.  `commit_graph` is a Python
`dict`, modelled as an insertion-ordered association list from commit hash to
heap reference. -/

/-- `GraphNode.__init__` fields (gitutils.py lines 62-67).  `parents` and
`children` hold heap references to other nodes. -/
structure GraphNode where
  commit_hash : String
  parents : List Nat
  children : List Nat
deriving DecidableEq

/-- `GraphNode(commit_hash)`: a freshly constructed node. -/
def emptyNode (h : String) : GraphNode :=
  { commit_hash := h, parents := [], children := [] }

/-- The state built by `git_commit_graph`: the heap of all allocated
`GraphNode` objects and the `commit_graph` dictionary. -/
structure PyGraph where
  heap : List GraphNode
  dict : List (String × Nat)
deriving DecidableEq

/-- Python `dict` lookup on an insertion-ordered association list. -/
def assocFind? {α : Type} (d : List (String × α)) (k : String) : Option α :=
  (d.find? (fun p => p.1 == k)).map (fun p => p.2)

/-- The node a heap reference denotes (references produced by the
construction are always in range; the fallback node is never read through
them). -/
def nodeAt (heap : List GraphNode) (r : Nat) : GraphNode :=
  (heap[r]?).getD (emptyNode "")

/-- The node a reference denotes in a graph state. -/
def getNode (g : PyGraph) (r : Nat) : GraphNode :=
  nodeAt g.heap r

/-- The commit hash stored at a heap reference. -/
def refHash (g : PyGraph) (r : Nat) : String :=
  (getNode g r).commit_hash

/-- `commit_graph.setdefault(h, GraphNode(h))` (gitutils.py lines 594 and
597): the fresh node is allocated before the lookup (Python evaluates the
default argument eagerly), and the existing binding is returned if the key is
already present. -/
def setdefaultNode (g : PyGraph) (h : String) : PyGraph × Nat :=
  let fresh := g.heap.length
  let heap1 := g.heap ++ [emptyNode h]
  match assocFind? g.dict h with
  | some r => ({ heap := heap1, dict := g.dict }, r)
  | none => ({ heap := heap1, dict := g.dict ++ [(h, fresh)] }, fresh)

/-- The list comprehension
`[commit_graph.setdefault(c, GraphNode(c)) for c in children_hashes]`
(gitutils.py lines 597-598), evaluated left to right. -/
def setdefaultList (g : PyGraph) : List String → PyGraph × List Nat
  | [] => (g, [])
  | h :: rest =>
    let p1 := setdefaultNode g h
    let p2 := setdefaultList p1.1 rest
    (p2.1, p1.2 :: p2.2)

/-- One iteration of `for child in children: child.parents.append(self)`
(gitutils.py line 72), at heap reference `c` with `self = p`. -/
def appendParent (heap : List GraphNode) (p c : Nat) : List GraphNode :=
  match heap[c]? with
  | some node => heap.set c { node with parents := node.parents ++ [p] }
  | none => heap

/-- `GraphNode.add_children` (gitutils.py lines 69-73): append `self` to each
child's `parents`, then `self.children += children`. -/
def add_children (heap : List GraphNode) (self : Nat) (children : List Nat) :
    List GraphNode :=
  let heap1 := children.foldl (fun hp c => appendParent hp self c) heap
  match heap1[self]? with
  | some node => heap1.set self { node with children := node.children ++ children }
  | none => heap1

/-- The body of the `for` loop in `git_commit_graph` (gitutils.py lines
593-598) after the line has been split into tokens. -/
def graphStepTokens (g : PyGraph) (parent_hash : String)
    (children_hashes : List String) : PyGraph :=
  let p1 := setdefaultNode g parent_hash
  let p2 := setdefaultList p1.1 children_hashes
  { heap := add_children p2.1.heap p1.2 p2.2, dict := p2.1.dict }

/-- One iteration of the `for` loop in `git_commit_graph`:
`(parent_hash, *children_hashes) = line.split()` raises `ValueError` (modelled
as `none`) when the line has no tokens. -/
def graphStep (g : PyGraph) (line : String) : Option PyGraph :=
  match pySplit line with
  | [] => none
  | parent_hash :: children_hashes =>
    some (graphStepTokens g parent_hash children_hashes)

/-- `git_commit_graph` (gitutils.py lines 578-599) applied to the lines of
`git rev-list --children --all` output: processes the lines in reverse of the
given order, starting from an empty dictionary. -/
def git_commit_graph_lines (lines : List String) : Option PyGraph :=
  lines.reverse.foldlM graphStep { heap := [], dict := [] }

/-- `git_commit_graph` applied to the raw stdout of
`git rev-list --children --all`. -/
def git_commit_graph (stdout : String) : Option PyGraph :=
  git_commit_graph_lines (splitlines stdout)

/-- The hashes of the parents of the node bound to hash `h` (the observation
used by `git_prev_next.main` for `Mode.PREV`). -/
def parentHashes (g : PyGraph) (h : String) : List String :=
  match assocFind? g.dict h with
  | some r => (getNode g r).parents.map (refHash g)
  | none => []

/-- The hashes of the children of the node bound to hash `h`. -/
def childHashes (g : PyGraph) (h : String) : List String :=
  match assocFind? g.dict h with
  | some r => (getNode g r).children.map (refHash g)
  | none => []

/-! ### Stream-level specification of the construction

`buildGraph ss` runs the loop body over a stream of already-tokenized lines
in processing order (i.e. the reverse of the order the lines were fed to
`git_commit_graph`).  `parentsSpec` and `childrenSpec` describe, purely in
terms of the stream, the parent and child hash lists the loop accumulates. -/

def buildGraph (ss : List (String × List String)) : PyGraph :=
  ss.foldl (fun g pc => graphStepTokens g pc.1 pc.2) { heap := [], dict := [] }

/-- The parent hashes a stream assigns to hash `h`: one copy of the line's
parent hash per occurrence of `h` among the line's children, in stream
order. -/
def parentsSpec (h : String) : List (String × List String) → List String
  | [] => []
  | (p, cs) :: rest =>
    (cs.filter (fun c => c == h)).map (fun _ => p) ++ parentsSpec h rest

/-- The child hashes a stream assigns to hash `h`: the concatenation of the
child lists of the lines whose parent is `h`, in stream order. -/
def childrenSpec (h : String) : List (String × List String) → List String
  | [] => []
  | (p, cs) :: rest => (if p = h then cs else []) ++ childrenSpec h rest

/-- `h` occurs in the stream, as a parent or as a child. -/
def occursIn (h : String) (ss : List (String × List String)) : Prop :=
  ∃ pc ∈ ss, pc.1 = h ∨ h ∈ pc.2

/-! ### The construction invariant -/

/-- The relation between a processing-order stream `ss` and the state the
loop of `git_commit_graph` has built from it. -/
structure Represents (ss : List (String × List String)) (g : PyGraph) : Prop where
  /-- Every dictionary binding points into the heap. -/
  bound_valid : ∀ h r, assocFind? g.dict h = some r → r < g.heap.length
  /-- The node bound to `h` stores commit hash `h`. -/
  bound_hash : ∀ h r, assocFind? g.dict h = some r → refHash g r = h
  /-- Distinct hashes are bound to distinct nodes. -/
  bound_inj : ∀ h₁ h₂ r, assocFind? g.dict h₁ = some r →
    assocFind? g.dict h₂ = some r → h₁ = h₂
  /-- Every hash occurring in the stream is bound. -/
  occurs_bound : ∀ h, occursIn h ss → (assocFind? g.dict h).isSome
  /-- The parents of the node bound to `h` are exactly those the stream
  prescribes, in order. -/
  parents_spec : ∀ h r, assocFind? g.dict h = some r →
    (getNode g r).parents.map (refHash g) = parentsSpec h ss
  /-- The children of the node bound to `h` are exactly those the stream
  prescribes, in order. -/
  children_spec : ∀ h r, assocFind? g.dict h = some r →
    (getNode g r).children.map (refHash g) = childrenSpec h ss
  /-- Every recorded edge endpoint is a bound node. -/
  edges_bound : ∀ h r, assocFind? g.dict h = some r →
    ∀ q ∈ (getNode g r).parents ++ (getNode g r).children,
      ∃ h₀, assocFind? g.dict h₀ = some q

/-- The tokenized stream of a list of raw lines. -/
def tokenize (lines : List String) : List (String × List String) :=
  lines.map (fun l => ((pySplit l).headD "", (pySplit l).tail))

/-! ### `prompt_with_choices` (gitutils.py lines 241-341)

User input is modelled as the list of remaining stdin lines (reaching the end
of the list models `EOFError`).  Each prompting function returns the Python
return value, the remaining stdin lines, and the text written to stdout
(`input(prompt)` echoes the prompt to stdout; `print(x)` writes `x ++ "\n"`). -/

/-- In-place overwriting insertion into a Python `dict` modelled as an
insertion-ordered association list: an existing key keeps its position. -/
def dictInsert (d : List (String × String)) (k v : String) :
    List (String × String) :=
  if d.any (fun p => p.1 == k) then
    d.map (fun p => if p.1 == k then (k, v) else p)
  else d ++ [(k, v)]

/-- The inner loop of the `choices_table` dict comprehension (gitutils.py
lines 307-311): bind every spelling of one choice tuple to its canonical
(first) spelling `canon`. -/
def insertSpellings (d : List (String × String)) (canon : String) :
    List String → List (String × String)
  | [] => d
  | s :: rest => insertSpellings (dictInsert d (normalize_choice_str s) canon) canon rest

/-- The `choices_table` dict comprehension: choices are modelled as lists of
spellings (the source first wraps bare strings into one-element tuples,
gitutils.py lines 302-305); an empty spelling list models an empty tuple,
whose canonical spelling is modelled as `""`. -/
def choicesTableAux (d : List (String × String)) :
    List (List String) → List (String × String)
  | [] => d
  | t :: rest => choicesTableAux (insertSpellings d (t.headD "") t) rest

/-- `choices_table` (gitutils.py lines 307-311). -/
def choicesTable (choices : List (List String)) : List (String × String) :=
  choicesTableAux [] choices

/-- Model of Python `int(s)` on the strings it is applied to here (the
canonical numeric spellings `"1"`, `"2"`, ..., which are all-digit strings). -/
def digitsToNat (acc : Nat) : List Char → Nat
  | [] => acc
  | c :: cs => digitsToNat (acc * 10 + (c.toNat - Char.toNat '0')) cs

/-- `int(response)` (gitutils.py line 419). -/
def pyInt (s : String) : Nat := digitsToNat 0 s.data

/-- `default_invalid_handler` (gitutils.py lines 317-318). -/
def default_invalid_handler (response : String) : String :=
  "\"" ++ response ++ "\" is not a valid choice."

/-- The `while True` input loop of `prompt_with_choices` (gitutils.py lines
322-340).  `dflt` is the already-normalized default (the source normalizes it
once before the loop, line 314, and asserts it is in the table — the `getD`
fallback is never read for inputs satisfying that assertion). -/
def promptGo (table : List (String × String)) (prompt : String)
    (dflt : Option String) (invalid_handler : String → String) :
    List String → Option String × List String × String
  | [] => (none, [], prompt ++ "\n")
  | raw :: rest =>
    let n := normalize_choice_str raw
    if n == "" then
      match dflt with
      | none =>
        let r := promptGo table prompt dflt invalid_handler rest
        (r.1, r.2.1, prompt ++ r.2.2)
      | some d => (some ((assocFind? table d).getD ""), rest, prompt)
    else
      match assocFind? table n with
      | some canon => (some canon, rest, prompt)
      | none =>
        let r := promptGo table prompt dflt invalid_handler rest
        (r.1, r.2.1, prompt ++ invalid_handler raw ++ "\n" ++ "\n" ++ r.2.2)

/-- `prompt_with_choices` (gitutils.py lines 241-341): returns `none` without
reading input when `choices` is empty, otherwise runs the input loop. -/
def prompt_with_choices (prompt : String) (choices : List (List String))
    (default : Option String) (invalid_handler : String → String)
    (inputs : List String) : Option String × List String × String :=
  if choices.isEmpty then (none, inputs, "")
  else promptGo (choicesTable choices) prompt (default.map normalize_choice_str)
      invalid_handler inputs

/-! ### `prompt_with_numbered_choices` (gitutils.py lines 343-421) -/

/-- The `invalid_handler` closure of `prompt_with_numbered_choices`
(gitutils.py lines 398-403). -/
def numbered_invalid_handler (max_choice : Nat) (response : String) : String :=
  "\"" ++ response ++ "\" is not a valid choice.\n" ++
  "The entered choice must be between 1 and " ++ toString max_choice ++
  ", inclusive.\n" ++
  "Enter \"help\" to show the choices again or \"quit\" to quit."

/-- The `while True` loop of `prompt_with_numbered_choices` (gitutils.py
lines 405-421).  Every iteration either returns or consumes at least one
stdin line before recursing on the `"?"` (help) branch, so fuel
`inputs.length + 1` (supplied by the caller) is never exhausted; the fuel-out
value is arbitrary. -/
def numberedLoop (allowed : List (List String)) (prompt : String)
    (dflt : Option String) (invalid_handler : String → String)
    (instructions : String) : Nat → List String → Option Nat × List String × String
  | 0, inputs => (none, inputs, "")
  | fuel + 1, inputs =>
    let r := prompt_with_choices prompt allowed dflt invalid_handler inputs
    match r.1 with
    | none => (none, r.2.1, r.2.2)
    | some response =>
      if response == "q" then (none, r.2.1, r.2.2)
      else if response == "?" then
        let r2 := numberedLoop allowed prompt dflt invalid_handler instructions fuel r.2.1
        (r2.1, r2.2.1, r.2.2 ++ "\n" ++ instructions ++ "\n" ++ r2.2.2)
      else (some (pyInt response - 1), r.2.1, r.2.2)

/-- `prompt_with_numbered_choices` (gitutils.py lines 343-421).  `max_length`
is `terminal_size().columns - 1`, with `none` modelling the `math.inf` width
used when stdout is not a terminal.  The source asserts
`default_index is None or 0 <= default_index < max_choice` after the
single-choice return. -/
def prompt_with_numbered_choices (choices : List String)
    (default_index : Option Nat) (preamble : String) (promptOpt : Option String)
    (max_length : Option Nat) (inputs : List String) :
    Option Nat × List String × String :=
  if choices.isEmpty then (none, inputs, "")
  else
    let max_choice := choices.length
    if max_choice == 1 then (some 0, inputs, "")
    else
      let numbered := (List.range max_choice).map (fun i =>
        ellipsizeStr ("  " ++ toString (i + 1) ++ ": " ++ choices.getD i "")
          max_length)
      let instructions := String.intercalate "\n"
        ((if preamble == "" then [] else [preamble]) ++ numbered)
      let default_hint := match default_index with
        | none => ""
        | some i => "[" ++ toString (i + 1) ++ "] "
      let default_prompt :=
        (if max_choice == 2 then "[1, 2]: "
         else "[1.." ++ toString max_choice ++ "]: ") ++ default_hint
      let prompt := match promptOpt with
        | some p => if p == "" then default_prompt else p ++ " " ++ default_prompt
        | none => default_prompt
      let allowed := (List.range max_choice).map (fun i => [toString (i + 1)])
        ++ [["?", "h", "help"], ["q", "quit"]]
      let dflt := default_index.map (fun i => toString (i + 1))
      let r := numberedLoop allowed prompt dflt
        (numbered_invalid_handler max_choice) instructions (inputs.length + 1) inputs
      (r.1, r.2.1, instructions ++ "\n" ++ r.2.2)

/-! ### The navigation command (`git_prev_next.py`) and `entrypoint`
(gitutils.py lines 89-106)

The external collaborator (the `git` executable) is modelled by an `Env`
record of total functions: the claims under verification only exercise runs
in which `git rev-list`, `git rev-parse` and `git log` succeed, while the
final `git checkout` may return any exit code.  Argument parsing, the
`--verbose` flag and the `--attach` option (configured off, as in the
repository's test-suite) are glue outside the modelled core. -/

/-- `Mode` (git_prev_next.py lines 11-14). -/
inductive Mode where
  | PREV
  | NEXT
deriving DecidableEq

/-- The outcome of `main` before the `entrypoint` wrapper: a normal return
value, a raised `AbortError(message, cancelled, exit_code)` (gitutils.py
lines 18-30), or an unhandled Python exception. -/
inductive MainResult where
  | ret (code : Int)
  | abortErr (msg : String) (cancelled : Bool) (exitCode : Int)
  | pyCrash
deriving DecidableEq

/-- The external collaborator interface used by one navigation run. -/
structure Env where
  /-- stdout of `git rev-list --children --all`. -/
  revListOut : String
  /-- `git_commit_hash("HEAD")`. -/
  headHash : String
  /-- `git_commit_hash(h, short=True)`. -/
  shortHash : String → String
  /-- `summarize_git_commit(h, "%h %s")`. -/
  summarize : String → String
  /-- the return code of `git checkout --detach h`. -/
  checkoutCode : String → Int
  /-- `terminal_size().columns`, `none` when stdout is not a terminal. -/
  termColumns : Option Nat

/-- `prompt_for_hash` (git_prev_next.py lines 17-39), returning `none` where
the source raises `AbortError(cancelled=True)`.  The selected index returned
by the prompt is always in range; the `getD` fallback is never read. -/
def prompt_for_hash (mode : Mode) (env : Env) (commit_hashes : List String)
    (inputs : List String) : Option String × List String × String :=
  let instructions := match mode with
    | Mode.PREV => "There are multiple parents:"
    | Mode.NEXT => "There are multiple children:"
  let prompt := match mode with
    | Mode.PREV => "Enter the parent index"
    | Mode.NEXT => "Enter the child index"
  let descriptions := commit_hashes.map env.summarize
  let r := prompt_with_numbered_choices descriptions none instructions
    (some prompt) (env.termColumns.map (fun c => c - 1)) inputs
  match r.1 with
  | none => (none, r.2.1, r.2.2)
  | some i => (some (commit_hashes.getD i ""), r.2.1, r.2.2)

/-- `main` (git_prev_next.py lines 42-95) with `attach` false, returning the
outcome together with the text written to stdout.  A head hash absent from
the graph makes `head_node.parents` an attribute access on `None`
(`pyCrash`), and a malformed `rev-list` line is an unhandled `ValueError`
(`pyCrash`). -/
def git_prev_next_main (mode : Mode) (env : Env) (inputs : List String) :
    MainResult × String :=
  match git_commit_graph env.revListOut with
  | none => (MainResult.pyCrash, "")
  | some commit_graph =>
    match assocFind? commit_graph.dict env.headHash with
    | none => (MainResult.pyCrash, "")
    | some head_ref =>
      let head_node := getNode commit_graph head_ref
      let target_nodes := match mode with
        | Mode.PREV => head_node.parents
        | Mode.NEXT => head_node.children
      let target_hashes := target_nodes.map (refHash commit_graph)
      if target_hashes.isEmpty then
        let short := env.shortHash env.headHash
        let message := match mode with
          | Mode.PREV => "Could not find a parent commit for " ++ short
          | Mode.NEXT => "Could not find a child commit for " ++ short
        (MainResult.abortErr message false 1, "")
      else if target_hashes.length == 1 then
        (MainResult.ret (env.checkoutCode (target_hashes.headD "")), "")
      else
        let r := prompt_for_hash mode env target_hashes inputs
        match r.1 with
        | none => (MainResult.abortErr "Cancelled." true 1, r.2.2)
        | some selected_hash =>
          (MainResult.ret (env.checkoutCode selected_hash), r.2.2)

/-- The script name printed by `entrypoint` for each mode (the wrapper
scripts `git-prev` and `git-next`; the repository's test-suite shows the
resulting diagnostics `git-prev: ...` and `git-next: ...`). -/
def scriptName : Mode → String
  | Mode.PREV => "git-prev"
  | Mode.NEXT => "git-next"

/-- The `entrypoint` wrapper (gitutils.py lines 89-106): returns the process
exit code and the text written to stderr, or `none` when the wrapped `main`
raised an unhandled (non-`AbortError`) exception. -/
def entrypoint_wrap (script : String) : MainResult → Option (Int × String)
  | MainResult.ret c => some (c, "")
  | MainResult.abortErr msg cancelled code =>
    some (code, if cancelled then "" else script ++ ": " ++ msg ++ "\n")
  | MainResult.pyCrash => none

/-- One full navigation run: exit code, stdout and stderr (`none` when the
run died with an unhandled exception). -/
def run_git_prev_next (mode : Mode) (env : Env) (inputs : List String) :
    Option (Int × String × String) :=
  let r := git_prev_next_main mode env inputs
  (entrypoint_wrap (scriptName mode) r.1).map (fun p => (p.1, r.2, p.2))

/-! ### Concrete fixtures (the end-to-end scenario of the test-suite) -/

/-- The `git rev-list --children --all` output of the end-to-end scenario. -/
def c3stdout : String :=
  "leaf2\nleaf1\nchild2 leaf1 leaf2\nchild1 child2\nroot child1\n"

/-- An environment over the end-to-end graph: `HEAD` is `head`, the checkout
exits 0 exactly on commit `sel`, and the collaborator fakes match the
repository's test-suite fakes (`rev-parse --short` echoes its argument,
`git log` yields `<hash> description`); stdout is not a terminal. -/
def c3env (head sel : String) : Env :=
  { revListOut := c3stdout, headHash := head, shortHash := fun h => h,
    summarize := fun h => h ++ " description",
    checkoutCode := fun h => if h == sel then 0 else 1, termColumns := none }

/-- An environment over the end-to-end graph whose checkout always exits with
code `c`. -/
def c3envCode (head : String) (c : Int) : Env :=
  { revListOut := c3stdout, headHash := head, shortHash := fun h => h,
    summarize := fun h => h ++ " description",
    checkoutCode := fun _ => c, termColumns := none }

/-- The concrete graph built from the end-to-end scenario. -/
def gC3 : PyGraph :=
  (git_commit_graph c3stdout).getD { heap := [], dict := [] }

/-- The stdout produced by the cancellation run of the end-to-end scenario
(the numbered choice list and the echoed prompt). -/
def c5stdout : String :=
  "There are multiple children:\n  1: leaf1 description\n  2: leaf2 description\nEnter the child index [1, 2]: \n"

/-- Specification of a `choices_table` lookup: the canonical spelling of the
last choice tuple containing a spelling that normalizes to `n` (later dict
comprehension assignments overwrite earlier ones). -/
def lookupSpec (n : String) : List (List String) → Option String
  | [] => none
  | t :: rest =>
    match lookupSpec n rest with
    | some v => some v
    | none =>
      if t.any (fun s => normalize_choice_str s == n) then some (t.headD "")
      else none


/-! ### Association-list lemmas -/

theorem assocFind?_nil {α : Type} (k : String) :
    assocFind? ([] : List (String × α)) k = none := rfl

theorem assocFind?_append {α : Type} (d e : List (String × α)) (k : String) :
    assocFind? (d ++ e) k = (assocFind? d k).or (assocFind? e k) := by
  unfold assocFind?
  rw [List.find?_append]
  cases d.find? (fun p => p.1 == k) <;> simp [Option.or]

theorem assocFind?_append_left {α : Type} {d : List (String × α)}
    (e : List (String × α)) {k : String} {v : α}
    (h : assocFind? d k = some v) : assocFind? (d ++ e) k = some v := by
  rw [assocFind?_append, h]; rfl

theorem assocFind?_append_right {α : Type} {d : List (String × α)}
    (e : List (String × α)) {k : String}
    (h : assocFind? d k = none) : assocFind? (d ++ e) k = assocFind? e k := by
  rw [assocFind?_append, h]; rfl

theorem assocFind?_singleton {α : Type} (k' : String) (v : α) (k : String) :
    assocFind? [(k', v)] k = if k' = k then some v else none := by
  by_cases h : k' = k
  · rw [if_pos h]
    subst h
    unfold assocFind?
    rw [List.find?_cons_of_pos _ (by simp)]
    rfl
  · rw [if_neg h]
    unfold assocFind?
    rw [List.find?_cons_of_neg _ (by simp [h]), List.find?_nil]
    rfl

theorem assocFind?_mem {α : Type} {d : List (String × α)} {k : String} {v : α}
    (h : assocFind? d k = some v) : (k, v) ∈ d := by
  unfold assocFind? at h
  cases hf : d.find? (fun p => p.1 == k) with
  | none => rw [hf] at h; exact absurd h (by simp)
  | some p =>
    rw [hf] at h
    have hp := List.find?_some hf
    have hm := List.mem_of_find?_eq_some hf
    simp at h hp
    obtain ⟨k₀, v₀⟩ := p
    simp at hp
    subst hp
    simp at h
    subst h
    exact hm

/-! ### Heap lemmas -/

theorem nodeAt_append_lt {heap : List GraphNode} {r : Nat}
    (xs : List GraphNode) (h : r < heap.length) :
    nodeAt (heap ++ xs) r = nodeAt heap r := by
  unfold nodeAt
  rw [List.getElem?_append, if_pos h]

theorem nodeAt_concat_self (heap : List GraphNode) (n : GraphNode) :
    nodeAt (heap ++ [n]) heap.length = n := by
  unfold nodeAt
  rw [List.getElem?_concat_length]
  rfl

theorem nodeAt_set_self {heap : List GraphNode} {r : Nat} (n : GraphNode)
    (h : r < heap.length) : nodeAt (heap.set r n) r = n := by
  unfold nodeAt
  rw [List.getElem?_set_self h]
  rfl

theorem nodeAt_set_ne {heap : List GraphNode} {r q : Nat} (n : GraphNode)
    (h : r ≠ q) : nodeAt (heap.set r n) q = nodeAt heap q := by
  unfold nodeAt
  rw [List.getElem?_set_ne h]

theorem nodeAt_oob {heap : List GraphNode} {r : Nat} (h : heap.length ≤ r) :
    nodeAt heap r = emptyNode "" := by
  unfold nodeAt
  rw [List.getElem?_eq_none h]
  rfl

/-! ### `appendParent` and `add_children` lemmas -/

theorem appendParent_length (heap : List GraphNode) (p c : Nat) :
    (appendParent heap p c).length = heap.length := by
  unfold appendParent
  cases heap[c]? <;> simp

theorem appendParent_nodeAt_ne (heap : List GraphNode) (p : Nat) {c q : Nat}
    (h : c ≠ q) : nodeAt (appendParent heap p c) q = nodeAt heap q := by
  unfold appendParent
  cases heap[c]? with
  | none => rfl
  | some node => exact nodeAt_set_ne _ h

theorem appendParent_nodeAt_self (heap : List GraphNode) (p : Nat) {c : Nat}
    (h : c < heap.length) :
    nodeAt (appendParent heap p c) c
      = { nodeAt heap c with parents := (nodeAt heap c).parents ++ [p] } := by
  unfold appendParent
  cases hc : heap[c]? with
  | none => exact absurd (List.getElem?_eq_getElem h) (by rw [hc]; simp)
  | some node =>
    have hn : nodeAt heap c = node := by unfold nodeAt; rw [hc]; rfl
    rw [nodeAt_set_self _ h, hn]

theorem foldAppendParent_length (crs : List Nat) (heap : List GraphNode) (p : Nat) :
    (crs.foldl (fun hp c => appendParent hp p c) heap).length = heap.length := by
  induction crs generalizing heap with
  | nil => rfl
  | cons c crs ih => simp only [List.foldl_cons, ih, appendParent_length]

theorem foldAppendParent_nodeAt (crs : List Nat) (heap : List GraphNode)
    (p : Nat) (r : Nat) (hr : r < heap.length) :
    nodeAt (crs.foldl (fun hp c => appendParent hp p c) heap) r
      = { nodeAt heap r with
          parents := (nodeAt heap r).parents
            ++ (crs.filter (fun c => c == r)).map (fun _ => p) } := by
  induction crs generalizing heap with
  | nil => simp
  | cons c crs ih =>
    simp only [List.foldl_cons]
    rw [ih _ (by rw [appendParent_length]; exact hr)]
    by_cases hc : c = r
    · subst hc
      rw [appendParent_nodeAt_self heap p hr]
      simp [List.filter_cons, List.append_assoc]
    · rw [appendParent_nodeAt_ne heap p hc]
      simp [List.filter_cons, hc]

theorem add_children_length (heap : List GraphNode) (p : Nat) (crs : List Nat) :
    (add_children heap p crs).length = heap.length := by
  unfold add_children
  cases hgp : (crs.foldl (fun hp c => appendParent hp p c) heap)[p]? with
  | none => simp [hgp, foldAppendParent_length]
  | some node => simp [hgp, foldAppendParent_length]

theorem add_children_nodeAt (heap : List GraphNode) {p : Nat} (crs : List Nat)
    (hp : p < heap.length) {r : Nat} (hr : r < heap.length) :
    nodeAt (add_children heap p crs) r
      = { commit_hash := (nodeAt heap r).commit_hash,
          parents := (nodeAt heap r).parents
            ++ (crs.filter (fun c => c == r)).map (fun _ => p),
          children := (nodeAt heap r).children
            ++ (if p = r then crs else []) } := by
  unfold add_children
  have hlen := foldAppendParent_length crs heap p
  have hfold := foldAppendParent_nodeAt crs heap p r hr
  have hfoldp := foldAppendParent_nodeAt crs heap p p hp
  cases hgp : (crs.foldl (fun hp c => appendParent hp p c) heap)[p]? with
  | none =>
    have : (crs.foldl (fun hp c => appendParent hp p c) heap).length ≤ p :=
      List.getElem?_eq_none_iff.mp hgp
    omega
  | some node =>
    have hnode : nodeAt (crs.foldl (fun hp c => appendParent hp p c) heap) p = node := by
      unfold nodeAt; rw [hgp]; rfl
    simp only [hgp]
    by_cases hpr : p = r
    · subst hpr
      rw [nodeAt_set_self _ (by omega), ← hnode, hfoldp]
      simp
    · rw [nodeAt_set_ne _ hpr, hfold]
      simp [hpr]

theorem foldAppendParent_commit_hash (crs : List Nat) (heap : List GraphNode)
    (p : Nat) (r : Nat) :
    (nodeAt (crs.foldl (fun hp c => appendParent hp p c) heap) r).commit_hash
      = (nodeAt heap r).commit_hash := by
  by_cases hr : r < heap.length
  · rw [foldAppendParent_nodeAt crs heap p r hr]
  · rw [nodeAt_oob (by rw [foldAppendParent_length]; omega),
      nodeAt_oob (by omega)]

theorem add_children_commit_hash (heap : List GraphNode) (p : Nat)
    (crs : List Nat) (r : Nat) :
    (nodeAt (add_children heap p crs) r).commit_hash
      = (nodeAt heap r).commit_hash := by
  unfold add_children
  have hlen := foldAppendParent_length crs heap p
  cases hgp : (crs.foldl (fun hp c => appendParent hp p c) heap)[p]? with
  | none =>
    simp only [hgp]
    exact foldAppendParent_commit_hash crs heap p r
  | some node =>
    have hp1 : p < (crs.foldl (fun hp c => appendParent hp p c) heap).length :=
      (List.getElem?_eq_some.mp hgp).1
    have hnode : nodeAt (crs.foldl (fun hp c => appendParent hp p c) heap) p = node := by
      unfold nodeAt; rw [hgp]; rfl
    simp only [hgp]
    by_cases hpr : p = r
    · subst hpr
      rw [nodeAt_set_self _ hp1, ← foldAppendParent_commit_hash crs heap p p, hnode]
    · rw [nodeAt_set_ne _ hpr]
      exact foldAppendParent_commit_hash crs heap p r


theorem parentsSpec_append (h : String) (ss ts : List (String × List String)) :
    parentsSpec h (ss ++ ts) = parentsSpec h ss ++ parentsSpec h ts := by
  induction ss with
  | nil => rfl
  | cons pc rest ih =>
    obtain ⟨p, cs⟩ := pc
    simp [parentsSpec, ih]

theorem childrenSpec_append (h : String) (ss ts : List (String × List String)) :
    childrenSpec h (ss ++ ts) = childrenSpec h ss ++ childrenSpec h ts := by
  induction ss with
  | nil => rfl
  | cons pc rest ih =>
    obtain ⟨p, cs⟩ := pc
    simp [childrenSpec, ih]

theorem parentsSpec_of_not_occurs {h : String} {ss : List (String × List String)}
    (hno : ¬ occursIn h ss) : parentsSpec h ss = [] := by
  induction ss with
  | nil => rfl
  | cons pc rest ih =>
    obtain ⟨p, cs⟩ := pc
    have h1 : ¬ (h ∈ cs) := fun hm => hno ⟨(p, cs), by simp, Or.inr hm⟩
    have h2 : ¬ occursIn h rest := fun ⟨pc, hm, hor⟩ => hno ⟨pc, by simp [hm], hor⟩
    simp only [parentsSpec, ih h2, List.append_nil]
    have : cs.filter (fun c => c == h) = [] := by
      apply List.filter_eq_nil_iff.mpr
      intro c hc
      simp only [beq_iff_eq]
      exact fun he => h1 (he ▸ hc)
    simp [this]

theorem childrenSpec_of_not_occurs {h : String} {ss : List (String × List String)}
    (hno : ¬ occursIn h ss) : childrenSpec h ss = [] := by
  induction ss with
  | nil => rfl
  | cons pc rest ih =>
    obtain ⟨p, cs⟩ := pc
    have h1 : p ≠ h := fun he => hno ⟨(p, cs), by simp, Or.inl he⟩
    have h2 : ¬ occursIn h rest := fun ⟨pc, hm, hor⟩ => hno ⟨pc, by simp [hm], hor⟩
    simp [childrenSpec, h1, ih h2]

theorem filter_beq_map_const {α β : Type} [BEq α] [LawfulBEq α]
    (l : List α) (x : α) (p : β) :
    (l.filter (fun c => c == x)).map (fun _ => p)
      = List.replicate (l.count x) p := by
  induction l with
  | nil => rfl
  | cons c rest ih =>
    rw [List.count_cons]
    by_cases hc : c = x
    · subst hc
      simp [List.filter_cons, List.replicate_succ, ih, List.replicate_add]
    · have : (c == x) = false := beq_eq_false_iff_ne.mpr hc
      simp [List.filter_cons, this, ih]

theorem mem_childrenSpec_iff_mem_parentsSpec (a b : String)
    (ss : List (String × List String)) :
    a ∈ childrenSpec b ss ↔ b ∈ parentsSpec a ss := by
  induction ss with
  | nil => simp [childrenSpec, parentsSpec]
  | cons pc rest ih =>
    obtain ⟨p, cs⟩ := pc
    simp only [childrenSpec, parentsSpec, List.mem_append, ih,
      filter_beq_map_const, List.mem_replicate]
    constructor
    · rintro (h1 | h2)
      · by_cases hp : p = b
        · rw [if_pos hp] at h1
          exact Or.inl ⟨fun h0 => (List.count_eq_zero.mp h0) h1, hp.symm⟩
        · rw [if_neg hp] at h1
          exact absurd h1 (List.not_mem_nil a)
      · exact Or.inr h2
    · rintro (⟨hcnt, hbp⟩ | h2)
      · subst hbp
        left
        rw [if_pos rfl]
        by_contra hna
        exact hcnt (List.count_eq_zero.mpr hna)
      · exact Or.inr h2

theorem represents_nil : Represents [] { heap := [], dict := [] } where
  bound_valid := by intro h r hf; rw [assocFind?_nil] at hf; exact absurd hf (by simp)
  bound_hash := by intro h r hf; rw [assocFind?_nil] at hf; exact absurd hf (by simp)
  bound_inj := by intro h₁ h₂ r hf; rw [assocFind?_nil] at hf; exact absurd hf (by simp)
  occurs_bound := by rintro h ⟨pc, hm, _⟩; exact absurd hm (List.not_mem_nil pc)
  parents_spec := by intro h r hf; rw [assocFind?_nil] at hf; exact absurd hf (by simp)
  children_spec := by intro h r hf; rw [assocFind?_nil] at hf; exact absurd hf (by simp)
  edges_bound := by intro h r hf; rw [assocFind?_nil] at hf; exact absurd hf (by simp)

/-! ### `setdefault` lemmas -/

theorem setdefaultNode_heap {g : PyGraph} {h : String} {g' : PyGraph} {r : Nat}
    (heq : setdefaultNode g h = (g', r)) :
    g'.heap = g.heap ++ [emptyNode h] := by
  unfold setdefaultNode at heq
  cases hfind : assocFind? g.dict h <;> rw [hfind] at heq <;>
    simp only [Prod.mk.injEq] at heq <;> rw [← heq.1]

theorem setdefaultNode_found {g : PyGraph} {h : String} {g' : PyGraph} {r r₀ : Nat}
    (heq : setdefaultNode g h = (g', r)) (hfind : assocFind? g.dict h = some r₀) :
    g'.dict = g.dict ∧ r = r₀ := by
  unfold setdefaultNode at heq
  rw [hfind] at heq
  simp only [Prod.mk.injEq] at heq
  exact ⟨by rw [← heq.1], heq.2.symm⟩

theorem setdefaultNode_new {g : PyGraph} {h : String} {g' : PyGraph} {r : Nat}
    (heq : setdefaultNode g h = (g', r)) (hfind : assocFind? g.dict h = none) :
    g'.dict = g.dict ++ [(h, g.heap.length)] ∧ r = g.heap.length := by
  unfold setdefaultNode at heq
  rw [hfind] at heq
  simp only [Prod.mk.injEq] at heq
  exact ⟨by rw [← heq.1], heq.2.symm⟩

theorem setdefaultNode_length {g : PyGraph} {h : String} {g' : PyGraph} {r : Nat}
    (heq : setdefaultNode g h = (g', r)) :
    g'.heap.length = g.heap.length + 1 := by
  rw [setdefaultNode_heap heq]
  simp

theorem setdefaultNode_getNode {g : PyGraph} {h : String} {g' : PyGraph} {r : Nat}
    (heq : setdefaultNode g h = (g', r)) {q : Nat} (hq : q < g.heap.length) :
    getNode g' q = getNode g q := by
  unfold getNode
  rw [setdefaultNode_heap heq]
  exact nodeAt_append_lt _ hq

theorem setdefaultNode_mono {g : PyGraph} {h : String} {g' : PyGraph} {r : Nat}
    (heq : setdefaultNode g h = (g', r)) :
    ∀ h₀ r₀, assocFind? g.dict h₀ = some r₀ → assocFind? g'.dict h₀ = some r₀ := by
  intro h₀ r₀ hf
  cases hfind : assocFind? g.dict h with
  | some r₁ => rw [(setdefaultNode_found heq hfind).1]; exact hf
  | none => rw [(setdefaultNode_new heq hfind).1]; exact assocFind?_append_left _ hf

theorem setdefaultNode_binds {g : PyGraph} {h : String} {g' : PyGraph} {r : Nat}
    (heq : setdefaultNode g h = (g', r)) :
    assocFind? g'.dict h = some r := by
  cases hfind : assocFind? g.dict h with
  | some r₁ =>
    obtain ⟨hd, hr⟩ := setdefaultNode_found heq hfind
    rw [hd, hr]; exact hfind
  | none =>
    obtain ⟨hd, hr⟩ := setdefaultNode_new heq hfind
    rw [hd, hr, assocFind?_append_right _ hfind, assocFind?_singleton, if_pos rfl]

theorem setdefaultNode_binds_rev {g : PyGraph} {h : String} {g' : PyGraph} {r : Nat}
    (heq : setdefaultNode g h = (g', r)) :
    ∀ h₀ r₀, assocFind? g'.dict h₀ = some r₀ →
      assocFind? g.dict h₀ = some r₀ ∨
        (h₀ = h ∧ r₀ = g.heap.length ∧ assocFind? g.dict h = none) := by
  intro h₀ r₀ hf
  cases hfind : assocFind? g.dict h with
  | some r₁ =>
    rw [(setdefaultNode_found heq hfind).1] at hf
    exact Or.inl hf
  | none =>
    rw [(setdefaultNode_new heq hfind).1] at hf
    cases hf0 : assocFind? g.dict h₀ with
    | some r₂ =>
      rw [assocFind?_append_left _ hf0] at hf
      exact Or.inl hf
    | none =>
      rw [assocFind?_append_right _ hf0, assocFind?_singleton] at hf
      by_cases hh : h = h₀
      · rw [if_pos hh] at hf
        have hr : g.heap.length = r₀ := by injection hf
        exact Or.inr ⟨hh.symm, hr.symm, rfl⟩
      · rw [if_neg hh] at hf
        exact absurd hf (by simp)

/-- `commit_graph.setdefault` preserves the construction invariant: an
existing binding is returned untouched, a new binding is a fresh empty node
for a hash that cannot occur in the already-processed stream. -/
theorem represents_setdefaultNode {ss : List (String × List String)}
    {g : PyGraph} {h : String} {g' : PyGraph} {r : Nat}
    (hrep : Represents ss g) (heq : setdefaultNode g h = (g', r)) :
    Represents ss g' := by
  have hlen := setdefaultNode_length heq
  have hstable := fun {q : Nat} (hq : q < g.heap.length) => setdefaultNode_getNode heq hq
  have hmono := setdefaultNode_mono heq
  have hrev := setdefaultNode_binds_rev heq
  have hrefstable : ∀ q, q < g.heap.length → refHash g' q = refHash g q := by
    intro q hq
    unfold refHash
    rw [hstable hq]
  -- a newly bound hash does not occur in the stream
  have hnew_notocc : assocFind? g.dict h = none → ¬ occursIn h ss := by
    intro hfind hocc
    have := hrep.occurs_bound h hocc
    rw [hfind] at this
    exact absurd this (by simp)
  have hnew_node : assocFind? g.dict h = none → getNode g' g.heap.length = emptyNode h := by
    intro _
    unfold getNode
    rw [setdefaultNode_heap heq]
    exact nodeAt_concat_self _ _
  refine ⟨?_, ?_, ?_, ?_, ?_, ?_, ?_⟩
  · -- bound_valid
    intro h₀ r₀ hf
    rcases hrev h₀ r₀ hf with hold | ⟨_, hr₀, _⟩
    · have := hrep.bound_valid h₀ r₀ hold
      omega
    · omega
  · -- bound_hash
    intro h₀ r₀ hf
    rcases hrev h₀ r₀ hf with hold | ⟨hh, hr₀, hnone⟩
    · have hv := hrep.bound_valid h₀ r₀ hold
      rw [hrefstable r₀ hv]
      exact hrep.bound_hash h₀ r₀ hold
    · subst hh hr₀
      unfold refHash
      rw [hnew_node hnone]
      rfl
  · -- bound_inj
    intro h₁ h₂ r₀ hf₁ hf₂
    rcases hrev h₁ r₀ hf₁ with hold₁ | ⟨hh₁, hr₁, _⟩ <;>
      rcases hrev h₂ r₀ hf₂ with hold₂ | ⟨hh₂, hr₂, _⟩
    · exact hrep.bound_inj h₁ h₂ r₀ hold₁ hold₂
    · have := hrep.bound_valid h₁ r₀ hold₁; omega
    · have := hrep.bound_valid h₂ r₀ hold₂; omega
    · rw [hh₁, hh₂]
  · -- occurs_bound
    intro h₀ hocc
    have := hrep.occurs_bound h₀ hocc
    cases hf : assocFind? g.dict h₀ with
    | none => rw [hf] at this; exact absurd this (by simp)
    | some r₀ => rw [hmono h₀ r₀ hf]; rfl
  · -- parents_spec
    intro h₀ r₀ hf
    rcases hrev h₀ r₀ hf with hold | ⟨hh, hr₀, hnone⟩
    · have hv := hrep.bound_valid h₀ r₀ hold
      rw [hstable hv]
      have hmapeq : (getNode g r₀).parents.map (refHash g')
          = (getNode g r₀).parents.map (refHash g) := by
        apply List.map_congr_left
        intro q hq
        have hqb := hrep.edges_bound h₀ r₀ hold q (List.mem_append_left _ hq)
        obtain ⟨hq₀, hfq⟩ := hqb
        exact hrefstable q (hrep.bound_valid _ _ hfq)
      rw [hmapeq]
      exact hrep.parents_spec h₀ r₀ hold
    · subst hh hr₀
      rw [hnew_node hnone, parentsSpec_of_not_occurs (hnew_notocc hnone)]
      rfl
  · -- children_spec
    intro h₀ r₀ hf
    rcases hrev h₀ r₀ hf with hold | ⟨hh, hr₀, hnone⟩
    · have hv := hrep.bound_valid h₀ r₀ hold
      rw [hstable hv]
      have hmapeq : (getNode g r₀).children.map (refHash g')
          = (getNode g r₀).children.map (refHash g) := by
        apply List.map_congr_left
        intro q hq
        have hqb := hrep.edges_bound h₀ r₀ hold q (List.mem_append_right _ hq)
        obtain ⟨hq₀, hfq⟩ := hqb
        exact hrefstable q (hrep.bound_valid _ _ hfq)
      rw [hmapeq]
      exact hrep.children_spec h₀ r₀ hold
    · subst hh hr₀
      rw [hnew_node hnone, childrenSpec_of_not_occurs (hnew_notocc hnone)]
      rfl
  · -- edges_bound
    intro h₀ r₀ hf q hq
    rcases hrev h₀ r₀ hf with hold | ⟨hh, hr₀, hnone⟩
    · have hv := hrep.bound_valid h₀ r₀ hold
      rw [hstable hv] at hq
      obtain ⟨h₁, hf₁⟩ := hrep.edges_bound h₀ r₀ hold q hq
      exact ⟨h₁, hmono h₁ q hf₁⟩
    · subst hh hr₀
      rw [hnew_node hnone] at hq
      exact absurd hq (List.not_mem_nil q)

/-- The list comprehension of `setdefault`s over the children: preserves the
invariant, extends the dictionary monotonically, leaves existing nodes
untouched, and returns references bound to the given hashes. -/
theorem setdefaultList_spec (cs : List String) {ss : List (String × List String)}
    {g : PyGraph} (hrep : Represents ss g) {g' : PyGraph} {crs : List Nat}
    (heq : setdefaultList g cs = (g', crs)) :
    Represents ss g' ∧
    (∀ h₀ r₀, assocFind? g.dict h₀ = some r₀ → assocFind? g'.dict h₀ = some r₀) ∧
    g.heap.length ≤ g'.heap.length ∧
    (∀ q, q < g.heap.length → getNode g' q = getNode g q) ∧
    List.Forall₂ (fun c rc => assocFind? g'.dict c = some rc) cs crs := by
  induction cs generalizing g crs with
  | nil =>
    unfold setdefaultList at heq
    simp only [Prod.mk.injEq] at heq
    obtain ⟨h1, h2⟩ := heq
    subst h1; subst h2
    exact ⟨hrep, fun _ _ hf => hf, le_refl _, fun _ _ => rfl, List.Forall₂.nil⟩
  | cons c cs ih =>
    unfold setdefaultList at heq
    simp only at heq
    rcases e1 : setdefaultNode g c with ⟨g1, rc⟩
    rw [e1] at heq
    rcases e2 : setdefaultList g1 cs with ⟨g2, rcs⟩
    rw [e2] at heq
    simp only [Prod.mk.injEq] at heq
    obtain ⟨hg2, hcrs⟩ := heq
    subst hg2
    subst hcrs
    have hrep1 := represents_setdefaultNode hrep e1
    obtain ⟨hrep2, hmono2, hlen2, hstable2, hf2⟩ := ih hrep1 e2
    have hmono1 := setdefaultNode_mono e1
    have hlen1 := setdefaultNode_length e1
    refine ⟨hrep2, ?_, ?_, ?_, ?_⟩
    · intro h₀ r₀ hf
      exact hmono2 h₀ r₀ (hmono1 h₀ r₀ hf)
    · omega
    · intro q hq
      rw [hstable2 q (by omega), setdefaultNode_getNode e1 hq]
    · exact List.Forall₂.cons (hmono2 c rc (setdefaultNode_binds e1)) hf2

/-! ### The step lemma -/

theorem forall₂_count {cs : List String} {crs : List Nat} {d : List (String × Nat)}
    (hf : List.Forall₂ (fun c rc => assocFind? d c = some rc) cs crs)
    (hinj : ∀ h₁ h₂ r, assocFind? d h₁ = some r → assocFind? d h₂ = some r → h₁ = h₂)
    {h : String} {r : Nat} (hb : assocFind? d h = some r) :
    crs.count r = cs.count h := by
  induction hf with
  | nil => rfl
  | cons hcr hrest ih =>
    rename_i c rc cs' crs'
    rw [List.count_cons, List.count_cons, ih]
    congr 1
    by_cases hc : c = h
    · subst hc
      rw [hcr] at hb
      injection hb with hb
      simp [hb]
    · have : rc ≠ r := by
        intro he
        subst he
        exact hc (hinj c h rc hcr hb)
      simp [hc, this]

theorem forall₂_map_refHash {g : PyGraph} {cs : List String} {crs : List Nat}
    (hf : List.Forall₂ (fun c rc => assocFind? g.dict c = some rc) cs crs)
    (hhash : ∀ h r, assocFind? g.dict h = some r → refHash g r = h) :
    crs.map (refHash g) = cs := by
  induction hf with
  | nil => rfl
  | cons hcr hrest ih =>
    rename_i c rc cs' crs'
    simp only [List.map_cons, ih]
    rw [hhash c rc hcr]

theorem forall₂_mem_isSome {d : List (String × Nat)} {cs : List String}
    {crs : List Nat}
    (hf : List.Forall₂ (fun c rc => assocFind? d c = some rc) cs crs)
    {h : String} (hm : h ∈ cs) : (assocFind? d h).isSome := by
  induction hf with
  | nil => exact absurd hm (List.not_mem_nil h)
  | cons hcr hrest ih =>
    rename_i c rc cs' crs'
    rcases List.mem_cons.mp hm with he | hm'
    · subst he; rw [hcr]; rfl
    · exact ih hm'

theorem forall₂_mem_bound {d : List (String × Nat)} {cs : List String}
    {crs : List Nat}
    (hf : List.Forall₂ (fun c rc => assocFind? d c = some rc) cs crs)
    {q : Nat} (hm : q ∈ crs) : ∃ c, assocFind? d c = some q := by
  induction hf with
  | nil => exact absurd hm (List.not_mem_nil q)
  | cons hcr hrest ih =>
    rcases List.mem_cons.mp hm with he | hm'
    · subst he; exact ⟨_, hcr⟩
    · exact ih hm'

theorem forall₂_mem_valid {g : PyGraph} {ss : List (String × List String)}
    (hrep : Represents ss g) {cs : List String} {crs : List Nat}
    (hf : List.Forall₂ (fun c rc => assocFind? g.dict c = some rc) cs crs)
    {rc : Nat} (hm : rc ∈ crs) : rc < g.heap.length := by
  induction hf with
  | nil => exact absurd hm (List.not_mem_nil rc)
  | cons hcr hrest ih =>
    rename_i c rc' cs' crs'
    rcases List.mem_cons.mp hm with he | hm'
    · subst he; exact hrep.bound_valid c rc hcr
    · exact ih hm'

/-- The loop body of `git_commit_graph` extends the invariant by one stream
element. -/
theorem represents_step {ss : List (String × List String)} {g : PyGraph}
    (p : String) (cs : List String) (hrep : Represents ss g) :
    Represents (ss ++ [(p, cs)]) (graphStepTokens g p cs) := by
  rcases e1 : setdefaultNode g p with ⟨g1, pr⟩
  rcases e2 : setdefaultList g1 cs with ⟨g2, crs⟩
  have hstep : graphStepTokens g p cs
      = { heap := add_children g2.heap pr crs, dict := g2.dict } := by
    unfold graphStepTokens
    simp [e1, e2]
  rw [hstep]
  have hrep1 := represents_setdefaultNode hrep e1
  obtain ⟨hrep2, hmono2, hlen2, hstable2, hf2⟩ := setdefaultList_spec cs hrep1 e2
  have hpr2 : assocFind? g2.dict p = some pr :=
    hmono2 p pr (setdefaultNode_binds e1)
  have hprv : pr < g2.heap.length := hrep2.bound_valid p pr hpr2
  set g' : PyGraph := { heap := add_children g2.heap pr crs, dict := g2.dict } with hg'
  have hdict : g'.dict = g2.dict := rfl
  have hheaplen : g'.heap.length = g2.heap.length := add_children_length _ _ _
  -- commit hashes are unchanged by add_children, so refHash is unchanged
  have hrh : ∀ q, refHash g' q = refHash g2 q := by
    intro q
    unfold refHash getNode
    exact add_children_commit_hash g2.heap pr crs q
  have hrhmap : ∀ l : List Nat, l.map (refHash g') = l.map (refHash g2) :=
    fun l => List.map_congr_left (fun q _ => hrh q)
  -- node contents after add_children
  have hnode : ∀ r, r < g2.heap.length →
      getNode g' r
        = { commit_hash := (getNode g2 r).commit_hash,
            parents := (getNode g2 r).parents
              ++ (crs.filter (fun c => c == r)).map (fun _ => pr),
            children := (getNode g2 r).children
              ++ (if pr = r then crs else []) } := by
    intro r hr
    unfold getNode
    exact add_children_nodeAt g2.heap crs hprv hr
  refine ⟨?_, ?_, ?_, ?_, ?_, ?_, ?_⟩
  · -- bound_valid
    intro h₀ r₀ hf
    rw [hdict] at hf
    rw [hheaplen]
    exact hrep2.bound_valid h₀ r₀ hf
  · -- bound_hash
    intro h₀ r₀ hf
    rw [hdict] at hf
    rw [hrh r₀]
    exact hrep2.bound_hash h₀ r₀ hf
  · -- bound_inj
    intro h₁ h₂ r₀ hf₁ hf₂
    rw [hdict] at hf₁ hf₂
    exact hrep2.bound_inj h₁ h₂ r₀ hf₁ hf₂
  · -- occurs_bound
    intro h₀ hocc
    rw [hdict]
    obtain ⟨pc, hm, hor⟩ := hocc
    rcases List.mem_append.mp hm with hm' | hm'
    · exact hrep2.occurs_bound h₀ ⟨pc, hm', hor⟩
    · have : pc = (p, cs) := List.mem_singleton.mp hm'
      subst this
      rcases hor with he | hm''
      · have he' : p = h₀ := he
        subst he'
        rw [hpr2]; rfl
      · exact forall₂_mem_isSome hf2 hm''
  · -- parents_spec
    intro h₀ r₀ hf
    rw [hdict] at hf
    have hv := hrep2.bound_valid h₀ r₀ hf
    rw [hnode r₀ hv]
    simp only [List.map_append, hrhmap]
    rw [parentsSpec_append]
    congr 1
    · exact hrep2.parents_spec h₀ r₀ hf
    · simp only [parentsSpec, List.append_nil]
      rw [List.map_map]
      have hc1 : (crs.filter (fun c => c == r₀)).map (refHash g2 ∘ fun _ => pr)
          = (crs.filter (fun c => c == r₀)).map (fun _ => p) := by
        apply List.map_congr_left
        intro q _
        simp only [Function.comp]
        exact hrep2.bound_hash p pr hpr2
      rw [hc1, filter_beq_map_const, filter_beq_map_const,
        forall₂_count hf2 hrep2.bound_inj hf]
  · -- children_spec
    intro h₀ r₀ hf
    rw [hdict] at hf
    have hv := hrep2.bound_valid h₀ r₀ hf
    rw [hnode r₀ hv]
    simp only [List.map_append, hrhmap]
    rw [childrenSpec_append]
    congr 1
    · exact hrep2.children_spec h₀ r₀ hf
    · simp only [childrenSpec, List.append_nil]
      by_cases hpr : pr = r₀
      · subst hpr
        have hph : p = h₀ := hrep2.bound_inj p h₀ pr hpr2 hf
        rw [if_pos rfl, if_pos hph]
        exact forall₂_map_refHash hf2 hrep2.bound_hash
      · have hph : ¬ (p = h₀) := by
          intro he
          subst he
          rw [hpr2] at hf
          injection hf with hf
          exact hpr hf
        rw [if_neg hpr, if_neg hph]
        rfl
  · -- edges_bound
    intro h₀ r₀ hf q hq
    rw [hdict] at hf ⊢
    have hv := hrep2.bound_valid h₀ r₀ hf
    rw [hnode r₀ hv] at hq
    simp only [List.mem_append] at hq
    rcases hq with (hq | hq) | (hq | hq)
    · exact hrep2.edges_bound h₀ r₀ hf q (List.mem_append_left _ hq)
    · have : q = pr := by
        rcases List.mem_map.mp hq with ⟨c, _, he⟩
        exact he.symm
      subst this
      exact ⟨p, hpr2⟩
    · exact hrep2.edges_bound h₀ r₀ hf q (List.mem_append_right _ hq)
    · by_cases hpr : pr = r₀
      · rw [if_pos hpr] at hq
        exact forall₂_mem_bound hf2 hq
      · rw [if_neg hpr] at hq
        exact absurd hq (List.not_mem_nil q)

/-! ### The invariant for every constructed graph -/

theorem represents_buildGraph (ss : List (String × List String)) :
    Represents ss (buildGraph ss) := by
  induction ss using List.reverseRecOn with
  | nil => exact represents_nil
  | append_singleton ss pc ih =>
    obtain ⟨p, cs⟩ := pc
    have hb : buildGraph (ss ++ [(p, cs)]) = graphStepTokens (buildGraph ss) p cs := by
      unfold buildGraph
      rw [List.foldl_append]
      rfl
    rw [hb]
    exact represents_step p cs ih

theorem foldlM_graphStep_eq (ls : List String) (g₀ : PyGraph)
    (hwf : ∀ l ∈ ls, pySplit l ≠ []) :
    ls.foldlM graphStep g₀
      = some (ls.foldl
          (fun g l => graphStepTokens g ((pySplit l).headD "") ((pySplit l).tail)) g₀) := by
  induction ls generalizing g₀ with
  | nil => rfl
  | cons l ls ih =>
    cases hsp : pySplit l with
    | nil => exact absurd hsp (hwf l (by simp))
    | cons p cs =>
      have hstep : graphStep g₀ l = some (graphStepTokens g₀ p cs) := by
        unfold graphStep
        rw [hsp]
      rw [List.foldlM_cons, hstep]
      show (ls.foldlM graphStep (graphStepTokens g₀ p cs)) = _
      rw [ih _ (fun l' hl' => hwf l' (by simp [hl']))]
      rw [List.foldl_cons, hsp]
      rfl

theorem foldlM_graphStep_some_wf (ls : List String) (g₀ g : PyGraph)
    (h : ls.foldlM graphStep g₀ = some g) : ∀ l ∈ ls, pySplit l ≠ [] := by
  induction ls generalizing g₀ with
  | nil => intro l hl; exact absurd hl (List.not_mem_nil l)
  | cons l ls ih =>
    cases hgs : graphStep g₀ l with
    | none =>
      rw [List.foldlM_cons, hgs] at h
      exact absurd h (by simp)
    | some g₁ =>
      rw [List.foldlM_cons, hgs] at h
      intro l' hl'
      rcases List.mem_cons.mp hl' with he | hm
      · subst he
        intro hsp
        unfold graphStep at hgs
        rw [hsp] at hgs
        exact absurd hgs (by simp)
      · exact ih g₁ h l' hm

theorem git_commit_graph_lines_some {lines : List String} {g : PyGraph}
    (h : git_commit_graph_lines lines = some g) :
    g = buildGraph (tokenize lines.reverse) ∧ ∀ l ∈ lines, pySplit l ≠ [] := by
  unfold git_commit_graph_lines at h
  have hwf : ∀ l ∈ lines.reverse, pySplit l ≠ [] :=
    foldlM_graphStep_some_wf _ _ _ h
  rw [foldlM_graphStep_eq _ _ hwf] at h
  injection h with h
  constructor
  · rw [← h]
    unfold buildGraph tokenize
    rw [List.foldl_map]
  · intro l hl
    exact hwf l (List.mem_reverse.mpr hl)

/-- Every graph produced by `git_commit_graph_lines` satisfies the
construction invariant for the processing-order stream of its input. -/
theorem represents_git_commit_graph_lines {lines : List String} {g : PyGraph}
    (h : git_commit_graph_lines lines = some g) :
    Represents (tokenize lines.reverse) g := by
  rw [(git_commit_graph_lines_some h).1]
  exact represents_buildGraph _

/-- Every graph produced by `git_commit_graph` satisfies the construction
invariant. -/
theorem represents_git_commit_graph {stdout : String} {g : PyGraph}
    (h : git_commit_graph stdout = some g) :
    Represents (tokenize (splitlines stdout).reverse) g :=
  represents_git_commit_graph_lines h

theorem git_commit_graph_lines_wf (lines : List String)
    (hwf : ∀ l ∈ lines, pySplit l ≠ []) :
    git_commit_graph_lines lines = some (buildGraph (tokenize lines.reverse)) := by
  unfold git_commit_graph_lines
  rw [foldlM_graphStep_eq _ _ (fun l hl => hwf l (List.mem_reverse.mp hl))]
  congr 1
  unfold buildGraph tokenize
  rw [List.foldl_map]

theorem parentsSpec_of_no_child {h : String} {ss : List (String × List String)}
    (hno : ∀ pc ∈ ss, h ∉ pc.2) : parentsSpec h ss = [] := by
  induction ss with
  | nil => rfl
  | cons pc rest ih =>
    obtain ⟨p, cs⟩ := pc
    have h1 : h ∉ cs := hno (p, cs) (by simp)
    have hfil : cs.filter (fun c => c == h) = [] := by
      apply List.filter_eq_nil_iff.mpr
      intro c hc
      simp only [beq_iff_eq]
      exact fun he => h1 (he ▸ hc)
    simp [parentsSpec, hfil, ih (fun pc hm => hno pc (by simp [hm]))]

theorem parentsSpec_tokenize_no_child {M : String} {ls : List String}
    (hno : ∀ l ∈ ls, M ∉ (pySplit l).tail) :
    parentsSpec M (tokenize ls) = [] := by
  apply parentsSpec_of_no_child
  intro pc hm
  obtain ⟨l, hl, he⟩ := List.mem_map.mp hm
  subst he
  exact hno l hl

theorem setdefaultList_mono (cs : List String) {g g' : PyGraph} {crs : List Nat}
    (heq : setdefaultList g cs = (g', crs)) :
    ∀ h₀ r₀, assocFind? g.dict h₀ = some r₀ → assocFind? g'.dict h₀ = some r₀ := by
  induction cs generalizing g crs with
  | nil =>
    unfold setdefaultList at heq
    simp only [Prod.mk.injEq] at heq
    obtain ⟨h1, _⟩ := heq
    subst h1
    exact fun _ _ hf => hf
  | cons c cs ih =>
    unfold setdefaultList at heq
    simp only at heq
    rcases e1 : setdefaultNode g c with ⟨g1, rc⟩
    rw [e1] at heq
    rcases e2 : setdefaultList g1 cs with ⟨g2, rcs⟩
    rw [e2] at heq
    simp only [Prod.mk.injEq] at heq
    obtain ⟨hg2, _⟩ := heq
    subst hg2
    intro h₀ r₀ hf
    exact ih e2 h₀ r₀ (setdefaultNode_mono e1 h₀ r₀ hf)

theorem graphStepTokens_mono (g : PyGraph) (p : String) (cs : List String) :
    ∀ h₀ r₀, assocFind? g.dict h₀ = some r₀ →
      assocFind? (graphStepTokens g p cs).dict h₀ = some r₀ := by
  rcases e1 : setdefaultNode g p with ⟨g1, pr⟩
  rcases e2 : setdefaultList g1 cs with ⟨g2, crs⟩
  have hd : (graphStepTokens g p cs).dict = g2.dict := by
    unfold graphStepTokens
    simp [e1, e2]
  intro h₀ r₀ hf
  rw [hd]
  exact setdefaultList_mono cs e2 h₀ r₀ (setdefaultNode_mono e1 h₀ r₀ hf)

theorem graphStep_mono {g : PyGraph} {line : String} {g' : PyGraph}
    (h : graphStep g line = some g') :
    ∀ h₀ r₀, assocFind? g.dict h₀ = some r₀ → assocFind? g'.dict h₀ = some r₀ := by
  unfold graphStep at h
  cases hsp : pySplit line with
  | nil =>
    rw [hsp] at h
    exact absurd h (by simp)
  | cons p cs =>
    rw [hsp] at h
    injection h with h
    subst h
    exact graphStepTokens_mono g p cs

/-! ### Claim theorems: the commit graph -/

/-- C2: for every graph produced by commit-graph construction, for every node
`n` in the graph's node map and every child `c` of `n`, `n` appears in `c`'s
parents, and symmetrically every parent `p` of `n` has `n` among its
children: edges are always recorded as mutually consistent pairs. -/
theorem C2_graph_symmetry (stdout : String) (g : PyGraph)
    (hg : git_commit_graph stdout = some g) (h : String) (r : Nat)
    (hb : assocFind? g.dict h = some r) :
    (∀ c ∈ (getNode g r).children, r ∈ (getNode g c).parents) ∧
    (∀ p ∈ (getNode g r).parents, r ∈ (getNode g p).children) := by
  have hrep := represents_git_commit_graph hg
  constructor
  · intro c hc
    obtain ⟨hc₀, hfc⟩ := hrep.edges_bound h r hb c (List.mem_append_right _ hc)
    have hhc : refHash g c = hc₀ := hrep.bound_hash hc₀ c hfc
    have h1 : hc₀ ∈ childrenSpec h (tokenize (splitlines stdout).reverse) := by
      rw [← hrep.children_spec h r hb]
      exact hhc ▸ List.mem_map_of_mem (refHash g) hc
    have h2 := (mem_childrenSpec_iff_mem_parentsSpec hc₀ h _).mp h1
    rw [← hrep.parents_spec hc₀ c hfc] at h2
    obtain ⟨q, hq, hqh⟩ := List.mem_map.mp h2
    obtain ⟨h₁, hf₁⟩ := hrep.edges_bound hc₀ c hfc q (List.mem_append_left _ hq)
    have hrq : refHash g q = h₁ := hrep.bound_hash h₁ q hf₁
    have hh₁ : h₁ = h := by rw [← hrq, hqh]
    subst hh₁
    have hqr : q = r := by
      have := hf₁.symm.trans hb
      injection this
    exact hqr ▸ hq
  · intro p hp
    obtain ⟨hp₀, hfp⟩ := hrep.edges_bound h r hb p (List.mem_append_left _ hp)
    have hhp : refHash g p = hp₀ := hrep.bound_hash hp₀ p hfp
    have h1 : hp₀ ∈ parentsSpec h (tokenize (splitlines stdout).reverse) := by
      rw [← hrep.parents_spec h r hb]
      exact hhp ▸ List.mem_map_of_mem (refHash g) hp
    have h2 := (mem_childrenSpec_iff_mem_parentsSpec h hp₀ _).mpr h1
    rw [← hrep.children_spec hp₀ p hfp] at h2
    obtain ⟨q, hq, hqh⟩ := List.mem_map.mp h2
    obtain ⟨h₁, hf₁⟩ := hrep.edges_bound hp₀ p hfp q (List.mem_append_right _ hq)
    have hrq : refHash g q = h₁ := hrep.bound_hash h₁ q hf₁
    have hh₁ : h₁ = h := by rw [← hrq, hqh]
    subst hh₁
    have hqr : q = r := by
      have := hf₁.symm.trans hb
      injection this
    exact hqr ▸ hq

/-- C2 witness: in the end-to-end graph, `child2` (reference 3) has `leaf1`
(reference 5) among its children, and `child2` is among `leaf1`'s parents. -/
theorem C2_graph_symmetry_witness : 3 ∈ (getNode gC3 5).parents :=
  (C2_graph_symmetry c3stdout gC3 (by decide) "child2" 3 (by decide)).1 5 (by decide)

/-- C10: in every constructed graph, the node stored under key `h` has its
commit-hash field equal to `h` and lives in the heap; moreover each key stays
bound to the same node for the whole construction: a construction step never
rebinds an existing key, and `setdefault` on an existing key returns the
stored reference and leaves the dictionary unchanged. -/
theorem C10_key_node_consistency :
    (∀ stdout g, git_commit_graph stdout = some g →
      ∀ h r, assocFind? g.dict h = some r →
        r < g.heap.length ∧ (getNode g r).commit_hash = h) ∧
    (∀ g line g', graphStep g line = some g' →
      ∀ h r, assocFind? g.dict h = some r → assocFind? g'.dict h = some r) ∧
    (∀ g h r, assocFind? g.dict h = some r →
      (setdefaultNode g h).1.dict = g.dict ∧ (setdefaultNode g h).2 = r) := by
  refine ⟨?_, ?_, ?_⟩
  · intro stdout g hg h r hb
    have hrep := represents_git_commit_graph hg
    exact ⟨hrep.bound_valid h r hb, hrep.bound_hash h r hb⟩
  · intro g line g' hstep h r hb
    exact graphStep_mono hstep h r hb
  · intro g h r hb
    exact setdefaultNode_found rfl hb

/-- C10 witness: in the end-to-end graph, key `root` is bound to reference 0,
whose node stores hash `root`; and `setdefault` on the existing key `root`
returns reference 0 without touching the dictionary. -/
theorem C10_key_node_consistency_witness :
    (0 < gC3.heap.length ∧ (getNode gC3 0).commit_hash = "root") ∧
    (setdefaultNode gC3 "root").1.dict = gC3.dict ∧
      (setdefaultNode gC3 "root").2 = 0 :=
  ⟨C10_key_node_consistency.1 c3stdout gC3 (by decide) "root" 0 (by decide),
   C10_key_node_consistency.2.2 gC3 "root" 0 (by decide)⟩

/-- C1 counterexample: the oldest-first edge stream `P1 M`, `P2 M`, `M`
declares `M` as a child on `P1`'s line before `P2`'s line, yet the
constructed node for `M` has parents `[P2, P1]`, not `[P1, P2]`: the
construction processes the fed lines in reverse, so an oldest-first feed is
processed newest-first. -/
theorem C1_oldest_first_counterexample :
    (git_commit_graph "P1 M\nP2 M\nM\n").map (fun g => parentHashes g "M")
        = some ["P2", "P1"] ∧
      (["P2", "P1"] : List String) ≠ ["P1", "P2"] := by
  refine ⟨by decide, by decide⟩

/-- C1 (amended): if `M` is declared as a child exactly on `P1`'s line and on
`P2`'s line (once on each), and `P2`'s line is fed to the construction before
`P1`'s line, then the constructed node for `M` has parents exactly
`[P1, P2]`: the construction processes lines in reverse of the fed order, so
for the newest-first feed the tool produces, parents end up oldest-first. -/
theorem C1_parent_order (A B C : List String) (L1 L2 P1 P2 M : String)
    (cs1 cs2 : List String)
    (h1 : pySplit L1 = P1 :: cs1) (h2 : pySplit L2 = P2 :: cs2)
    (hc1 : cs1.count M = 1) (hc2 : cs2.count M = 1)
    (hno : ∀ L ∈ A ++ B ++ C, M ∉ (pySplit L).tail)
    (hwf : ∀ L ∈ A ++ B ++ C, pySplit L ≠ []) :
    ∃ g, git_commit_graph_lines (A ++ [L2] ++ B ++ [L1] ++ C) = some g ∧
      parentHashes g M = [P1, P2] := by
  have hwfall : ∀ l ∈ A ++ [L2] ++ B ++ [L1] ++ C, pySplit l ≠ [] := by
    intro l hl
    simp only [List.mem_append, List.mem_singleton] at hl
    rcases hl with (((hA | hL2) | hB) | hL1) | hC
    · exact hwf l (by simp [hA])
    · subst hL2; rw [h2]; simp
    · exact hwf l (by simp [hB])
    · subst hL1; rw [h1]; simp
    · exact hwf l (by simp [hC])
  refine ⟨buildGraph (tokenize (A ++ [L2] ++ B ++ [L1] ++ C).reverse),
    git_commit_graph_lines_wf _ hwfall, ?_⟩
  have hrep := represents_buildGraph (tokenize (A ++ [L2] ++ B ++ [L1] ++ C).reverse)
  have hrev : (A ++ [L2] ++ B ++ [L1] ++ C).reverse
      = C.reverse ++ [L1] ++ B.reverse ++ [L2] ++ A.reverse := by
    simp [List.reverse_append]
  have htok : tokenize (A ++ [L2] ++ B ++ [L1] ++ C).reverse
      = tokenize C.reverse ++ [(P1, cs1)] ++ tokenize B.reverse
          ++ [(P2, cs2)] ++ tokenize A.reverse := by
    rw [hrev]
    unfold tokenize
    simp [h1, h2]
  have hspec : parentsSpec M (tokenize (A ++ [L2] ++ B ++ [L1] ++ C).reverse)
      = [P1, P2] := by
    rw [htok]
    rw [parentsSpec_append, parentsSpec_append, parentsSpec_append,
      parentsSpec_append]
    rw [parentsSpec_tokenize_no_child
        (fun l hl => hno l (by simp [List.mem_reverse.mp hl])),
      parentsSpec_tokenize_no_child
        (fun l hl => hno l (by simp [List.mem_reverse.mp hl])),
      parentsSpec_tokenize_no_child
        (fun l hl => hno l (by simp [List.mem_reverse.mp hl]))]
    simp only [parentsSpec, List.append_nil, List.nil_append]
    rw [filter_beq_map_const, filter_beq_map_const, hc1, hc2]
    rfl
  have hMmem : M ∈ cs1 := by
    by_contra hna
    rw [List.count_eq_zero.mpr hna] at hc1
    exact absurd hc1 (by simp)
  have hocc : occursIn M (tokenize (A ++ [L2] ++ B ++ [L1] ++ C).reverse) := by
    refine ⟨(P1, cs1), ?_, Or.inr hMmem⟩
    rw [htok]
    simp
  have hsome := hrep.occurs_bound M hocc
  obtain ⟨r, hfr⟩ := Option.isSome_iff_exists.mp hsome
  simp only [parentHashes, hfr]
  rw [hrep.parents_spec M r hfr]
  exact hspec

/-- C1 witness: feeding the two-line stream `P2 M`, `P1 M` (with `P2`'s line
first) yields `M` with parents `[P1, P2]`. -/
theorem C1_parent_order_witness :
    ∃ g, git_commit_graph_lines ["P2 M", "P1 M"] = some g ∧
      parentHashes g "M" = ["P1", "P2"] :=
  C1_parent_order [] [] [] "P1 M" "P2 M" "P1" "P2" "M" ["M"] ["M"]
    (by decide) (by decide) (by decide) (by decide)
    (by intro L hL; simp at hL)
    (by intro L hL; simp at hL)

/-- C3: the end-to-end scenario: the newest-first edge listing yields `root`
with children exactly `[child1]`, `child1` with children `[child2]`, and
`child2` with children `[leaf1, leaf2]` in that order; navigating forward
from `child2` with simulated input `2` selects `leaf2` (the checkout of
`leaf2` returns exit code 0); and navigating forward from `leaf2` fails with
the no-candidate diagnostic naming `leaf2`. -/
theorem C3_end_to_end :
    ((git_commit_graph c3stdout).map
        (fun g => (childHashes g "root", childHashes g "child1", childHashes g "child2"))
      = some (["child1"], ["child2"], ["leaf1", "leaf2"])) ∧
    ((run_git_prev_next Mode.NEXT (c3env "child2" "leaf2") ["2"]).map
        (fun r => r.1) = some 0) ∧
    (run_git_prev_next Mode.NEXT (c3env "leaf2" "") []
      = some (1, "", "git-next: Could not find a child commit for leaf2\n")) := by
  refine ⟨by decide, by decide, by decide⟩

/-! ### Choice-table lemmas -/

theorem assocFind?_cons {α : Type} (a : String) (b : α) (d : List (String × α))
    (k : String) :
    assocFind? ((a, b) :: d) k = if a = k then some b else assocFind? d k := by
  unfold assocFind?
  by_cases h : a = k
  · rw [List.find?_cons_of_pos _ (by simp [h]), if_pos h]
    rfl
  · rw [List.find?_cons_of_neg _ (by simp [h]), if_neg h]

theorem assocFind?_eq_none_of_not_any {α : Type} (d : List (String × α))
    (k : String) (h : ¬ d.any (fun p => p.1 == k)) : assocFind? d k = none := by
  unfold assocFind?
  rw [List.find?_eq_none.mpr]
  · rfl
  · intro p hp hpk
    exact h (List.any_eq_true.mpr ⟨p, hp, hpk⟩)

theorem assocFind?_overwrite (d : List (String × String)) (k v k' : String) :
    assocFind? (d.map (fun p => if p.1 == k then (k, v) else p)) k'
      = if k' = k
        then (if d.any (fun p => p.1 == k) then some v else none)
        else assocFind? d k' := by
  induction d with
  | nil =>
    by_cases h : k' = k <;> simp [h, assocFind?_nil]
  | cons p d ih =>
    obtain ⟨k₀, v₀⟩ := p
    rw [List.map_cons, List.any_cons]
    by_cases h0 : k₀ = k
    · have hhead : (if (k₀ == k) = true then (k, v) else (k₀, v₀)) = (k, v) := by
        simp [h0]
      rw [hhead]
      simp only [assocFind?_cons]
      rw [ih]
      by_cases h : k' = k
      · subst h
        simp [h0]
      · have hne : k₀ ≠ k' := fun he => h (he.symm.trans h0)
        simp [h, Ne.symm h, hne]
    · have h0b : (k₀ == k) = false := beq_eq_false_iff_ne.mpr h0
      have hhead : (if (k₀ == k) = true then (k, v) else (k₀, v₀)) = (k₀, v₀) := by
        simp [h0b]
      rw [hhead]
      simp only [assocFind?_cons]
      rw [ih]
      by_cases h : k' = k
      · subst h
        have hne : k₀ ≠ k' := h0
        simp [hne, h0b]
        rw [h0b, Bool.false_or]
      · simp [h]

theorem assocFind?_dictInsert (d : List (String × String)) (k v k' : String) :
    assocFind? (dictInsert d k v) k'
      = if k' = k then some v else assocFind? d k' := by
  unfold dictInsert
  by_cases hany : d.any (fun p => p.1 == k)
  · rw [if_pos hany, assocFind?_overwrite]
    by_cases h : k' = k
    · rw [if_pos h, if_pos h, if_pos hany]
    · rw [if_neg h, if_neg h]
  · rw [if_neg hany]
    by_cases h : k' = k
    · subst h
      rw [if_pos rfl,
        assocFind?_append_right _ (assocFind?_eq_none_of_not_any d k' hany),
        assocFind?_singleton, if_pos rfl]
    · rw [if_neg h, assocFind?_append]
      cases hf : assocFind? d k' with
      | some v₀ => rfl
      | none =>
        rw [assocFind?_singleton, if_neg (fun he => h he.symm)]
        rfl

theorem assocFind?_insertSpellings (d : List (String × String)) (canon : String)
    (ss : List String) (n : String) :
    assocFind? (insertSpellings d canon ss) n
      = if ss.any (fun s => normalize_choice_str s == n) then some canon
        else assocFind? d n := by
  induction ss generalizing d with
  | nil => simp [insertSpellings]
  | cons s ss ih =>
    unfold insertSpellings
    rw [ih]
    by_cases hs : ss.any (fun s => normalize_choice_str s == n)
    · rw [if_pos hs, if_pos (by simp [List.any_cons, hs])]
    · rw [if_neg hs, assocFind?_dictInsert]
      by_cases hn : normalize_choice_str s = n
      · rw [if_pos hn.symm, if_pos (by simp [List.any_cons, hn])]
      · rw [if_neg (fun he => hn he.symm),
          if_neg (by simp [List.any_cons, hs, hn])]

theorem assocFind?_choicesTableAux (d : List (String × String))
    (choices : List (List String)) (n : String) :
    assocFind? (choicesTableAux d choices) n
      = match lookupSpec n choices with
        | some v => some v
        | none => assocFind? d n := by
  induction choices generalizing d with
  | nil => rfl
  | cons t rest ih =>
    unfold choicesTableAux lookupSpec
    rw [ih]
    cases hls : lookupSpec n rest with
    | some v => rfl
    | none =>
      rw [assocFind?_insertSpellings]
      by_cases hany : t.any (fun s => normalize_choice_str s == n)
      · rw [if_pos hany, if_pos hany]
      · rw [if_neg hany, if_neg hany]

theorem lookupSpec_isSome_of_mem {n : String} {choices : List (List String)}
    {t : List String} {s : String} (ht : t ∈ choices) (hs : s ∈ t)
    (hn : normalize_choice_str s = n) : (lookupSpec n choices).isSome := by
  induction choices with
  | nil => cases ht
  | cons t' rest ih =>
    unfold lookupSpec
    cases hls : lookupSpec n rest with
    | some v => rfl
    | none =>
      rcases List.mem_cons.mp ht with he | hm
      · subst he
        rw [if_pos (List.any_eq_true.mpr ⟨s, hs, by simp [hn]⟩)]
        rfl
      · have := ih hm
        rw [hls] at this
        exact absurd this (by simp)

theorem lookupSpec_some_spec {n : String} {choices : List (List String)}
    {v : String} (h : lookupSpec n choices = some v) :
    ∃ t ∈ choices, v = t.headD "" ∧ ∃ s ∈ t, normalize_choice_str s = n := by
  induction choices with
  | nil => simp [lookupSpec] at h
  | cons t rest ih =>
    unfold lookupSpec at h
    cases hls : lookupSpec n rest with
    | some v' =>
      rw [hls] at h
      injection h with h
      subst h
      obtain ⟨t', hm, hv, hex⟩ := ih hls
      exact ⟨t', by simp [hm], hv, hex⟩
    | none =>
      rw [hls] at h
      by_cases hany : t.any (fun s => normalize_choice_str s == n)
      · rw [if_pos hany] at h
        injection h with h
        obtain ⟨s, hsm, hsn⟩ := List.any_eq_true.mp hany
        exact ⟨t, by simp, h.symm, s, hsm, by simpa using hsn⟩
      · rw [if_neg hany] at h
        exact absurd h (by simp)

/-! ### Claim theorems: prompting -/

/-- C7 counterexample: a choice whose single spelling is all whitespace is
matched (after stripping) by an all-whitespace input line, yet the prompt
does not return that choice's canonical spelling: stripping makes the input
empty, which triggers the default/reprompt path instead of table lookup
(here: no default, so the prompt reprompts and then cancels at end of
input). -/
theorem C7_whitespace_counterexample :
    (prompt_with_choices "" [["   "]] none default_invalid_handler ["   "]).1
        = none ∧
      (none : Option String) ≠ some "   " := by
  refine ⟨by decide, by decide⟩

/-- C7 (amended): for every non-empty choice set and every input line whose
stripped, case-folded form is non-empty, equals the normalization of one
spelling of one choice, and determines that choice uniquely, the prompt
returns that choice's canonical (first-listed) spelling with its configured
casing, consuming exactly that input line. -/
theorem C7_case_preserving_match (prompt : String) (choices : List (List String))
    (dflt : Option String) (inv : String → String) (t : List String)
    (s r : String) (rest : List String)
    (ht : t ∈ choices) (hs : s ∈ t)
    (hmatch : normalize_choice_str r = normalize_choice_str s)
    (hne : normalize_choice_str r ≠ "")
    (huniq : ∀ t' ∈ choices, ∀ s' ∈ t',
      normalize_choice_str s' = normalize_choice_str r →
        t'.headD "" = t.headD "") :
    prompt_with_choices prompt choices dflt inv (r :: rest)
      = (some (t.headD ""), rest, prompt) := by
  have hlookup : assocFind? (choicesTable choices) (normalize_choice_str r)
      = some (t.headD "") := by
    unfold choicesTable
    rw [assocFind?_choicesTableAux]
    have hsome := lookupSpec_isSome_of_mem ht hs hmatch.symm
    obtain ⟨v, hv⟩ := Option.isSome_iff_exists.mp hsome
    rw [hv]
    obtain ⟨t', hm, hveq, s', hs', hn'⟩ := lookupSpec_some_spec hv
    rw [hveq, huniq t' hm s' hs' hn']
  have hempty : choices.isEmpty = false := by
    cases choices
    · cases ht
    · rfl
  unfold prompt_with_choices
  rw [hempty]
  simp only [Bool.false_eq_true, if_false]
  unfold promptGo
  simp only [beq_eq_false_iff_ne.mpr hne, Bool.false_eq_true, if_false, hlookup]

/-- C7 witness: a configured choice `Yes` matched by the input `YES` returns
`Yes`, consuming one line of input. -/
theorem C7_case_preserving_match_witness :
    prompt_with_choices "? " [["Yes"], ["n", "no"]] none default_invalid_handler
        ["YES", "zzz"] = (some "Yes", ["zzz"], "? ") :=
  C7_case_preserving_match "? " [["Yes"], ["n", "no"]] none
    default_invalid_handler ["Yes"] "Yes" "YES" ["zzz"]
    (by decide) (by decide) (by decide) (by decide) (by decide)

theorem numberedLoop_nil (allowed : List (List String)) (prompt : String)
    (dflt : Option String) (inv : String → String) (instructions : String)
    (fuel : Nat) (hne : allowed.isEmpty = false) :
    numberedLoop allowed prompt dflt inv instructions (fuel + 1) []
      = (none, [], prompt ++ "\n") := by
  unfold numberedLoop prompt_with_choices
  rw [hne]
  rfl

/-- C5 counterexample: end of input during the two-candidate prompt of the
end-to-end scenario cancels the run with exit status 1 and empty stderr, but
standard output is not empty: it holds the rendered choice list and the
echoed prompt. -/
theorem C5_stdout_counterexample :
    run_git_prev_next Mode.NEXT (c3env "child2" "x") [] = some (1, c5stdout, "") ∧
      c5stdout ≠ "" := by
  refine ⟨by decide, by decide⟩

/-- C5 (amended): end of input during any multi-candidate (two or more
choices) numbered prompt returns the cancellation signal; in the end-to-end
scenario the navigation run then exits with the cancellation status 1 and
prints nothing to stderr, while standard output holds the choice list and
prompt (it is not empty). -/
theorem C5_cancellation_propagation (choices : List String)
    (default_index : Option Nat) (preamble : String) (promptOpt : Option String)
    (max_length : Option Nat) (h2 : 2 ≤ choices.length) :
    (prompt_with_numbered_choices choices default_index preamble promptOpt
        max_length []).1 = none ∧
    run_git_prev_next Mode.NEXT (c3env "child2" "x") [] = some (1, c5stdout, "") ∧
    c5stdout ≠ "" := by
  refine ⟨?_, by decide, by decide⟩
  have hne : choices.isEmpty = false := by
    cases choices
    · simp at h2
    · rfl
  have hne1 : (choices.length == 1) = false := by
    rw [beq_eq_false_iff_ne]
    omega
  unfold prompt_with_numbered_choices
  rw [hne]
  simp only [Bool.false_eq_true, if_false, hne1]
  rw [numberedLoop_nil _ _ _ _ _ _ (by simp)]

/-- C5 witness: the amended claim at the concrete two-candidate prompt of the
end-to-end scenario. -/
theorem C5_cancellation_propagation_witness :
    (prompt_with_numbered_choices ["leaf1 description", "leaf2 description"]
        none "There are multiple children:" (some "Enter the child index")
        none []).1 = none :=
  (C5_cancellation_propagation ["leaf1 description", "leaf2 description"]
    none "There are multiple children:" (some "Enter the child index")
    none (by decide)).1

/-- C6: for every string and positive width, `ellipsize` returns the string
unchanged when it fits; when it does not fit and the width is at least the
3-character ellipsis, the result is exactly `width` characters ending in
`...`; and when the width is smaller than the ellipsis, the result is a hard
cut of the first `width` characters with no ellipsis. -/
theorem C6_ellipsize (s : List Char) (width : Nat) (hw : 0 < width) :
    (s.length ≤ width → ellipsize s width = s) ∧
    (width < s.length → 3 ≤ width →
      (ellipsize s width).length = width ∧ ellipsisChars <:+ ellipsize s width) ∧
    (width < s.length → width < 3 → ellipsize s width = s.take width) := by
  have h3 : ellipsisChars.length = 3 := rfl
  unfold ellipsize
  refine ⟨?_, ?_, ?_⟩
  · intro hle
    rw [if_pos hle]
  · intro hlt hge
    rw [if_neg (by omega), if_neg (by omega)]
    constructor
    · rw [List.length_append, List.length_take, h3]
      have : min (width - 3) s.length = width - 3 := by omega
      rw [this]
      omega
    · exact List.suffix_append _ _
  · intro hlt hsm
    rw [if_neg (by omega), if_pos (by omega)]

/-- C6 witness: a label of length 11 truncated to width 10 yields exactly 10
characters ending in the ellipsis, and truncation to width 2 is the hard cut
of the first 2 characters. -/
theorem C6_ellipsize_witness :
    (ellipsize "abcdefghijk".data 10).length = 10 ∧
      ellipsisChars <:+ ellipsize "abcdefghijk".data 10 ∧
      ellipsize "abcdefghijk".data 2 = "abcdefghijk".data.take 2 :=
  ⟨((C6_ellipsize "abcdefghijk".data 10 (by decide)).2.1 (by decide) (by decide)).1,
   ((C6_ellipsize "abcdefghijk".data 10 (by decide)).2.1 (by decide) (by decide)).2,
   (C6_ellipsize "abcdefghijk".data 2 (by decide)).2.2 (by decide) (by decide)⟩

/-- C8: the numbered-choice prompt with exactly one item returns index 0
without consuming input and without writing output; and the Navigator with
exactly one candidate (forward from `root`, whose only child is `child1`)
checks out that candidate without prompting, with empty stdout. -/
theorem C8_single_choice_bypass :
    (∀ (c : String) (d : Option Nat) (pre : String) (pr : Option String)
        (w : Option Nat) (inputs : List String),
      prompt_with_numbered_choices [c] d pre pr w inputs = (some 0, inputs, "")) ∧
    run_git_prev_next Mode.NEXT (c3env "root" "child1") [] = some (0, "", "") := by
  refine ⟨fun c d pre pr w inputs => rfl, by decide⟩

/-- C9: the numbered-choice prompt returns the same value, `none`, both for
an empty choice set (without consuming input or writing output) and for user
cancellation (quit input or end of input), so callers cannot distinguish the
two outcomes by the return value alone. -/
theorem C9_empty_equals_cancel :
    (∀ (d : Option Nat) (pre : String) (pr : Option String) (w : Option Nat)
        (inputs : List String),
      prompt_with_numbered_choices [] d pre pr w inputs = (none, inputs, "")) ∧
    (prompt_with_numbered_choices ["a", "b"] none "" none none []).1 = none ∧
    (prompt_with_numbered_choices ["a", "b"] none "" none none ["q"]).1 = none := by
  refine ⟨fun d pre pr w inputs => rfl, by decide, by decide⟩

/-- C4 counterexample: the no-such-edge failure (forward from the leaf) and
the user-cancellation failure (end of input at the two-candidate prompt) both
exit with status 1, so the exit codes do not distinguish the failure
outcomes from one another. -/
theorem C4_exit_code_counterexample :
    (run_git_prev_next Mode.NEXT (c3env "leaf2" "") []).map (fun r => r.1)
        = some 1 ∧
      (run_git_prev_next Mode.NEXT (c3env "child2" "x") []).map (fun r => r.1)
        = some 1 := by
  refine ⟨by decide, by decide⟩

/-- C4 (amended): the navigation command exits 0 on a successful move;
no-such-edge and user cancellation both exit 1 and are distinguished only by
stderr (a single `program: message` diagnostic versus silence); and an
underlying-tool failure propagates the tool's own exit code (the checkout's
return code is returned directly, for every code `c`). -/
theorem C4_exit_codes (c : Int) :
    run_git_prev_next Mode.NEXT (c3env "root" "child1") [] = some (0, "", "") ∧
    run_git_prev_next Mode.NEXT (c3env "leaf2" "") []
      = some (1, "", "git-next: Could not find a child commit for leaf2\n") ∧
    (run_git_prev_next Mode.NEXT (c3env "child2" "x") []).map
        (fun r => (r.1, r.2.2)) = some (1, "") ∧
    run_git_prev_next Mode.NEXT (c3envCode "root" c) [] = some (c, "", "") := by
  exact ⟨by decide, by decide, by decide, rfl⟩

end GitScripts
